import Mathlib

/-!
Verification of the skybox vision core: shallow embedding of
`app/camera.py` (frame reassembly and the shared frame slot) and
`app/car_detector.py` (morphology, blob extraction, background update and
the counting state machine), with theorems settling the specification
claims about them.
-/

namespace Skybox

/-! ### Constants (car_detector.py module constants) -/

def CONFIRM_FRAMES : Nat := 2

def CLEAR_FRAMES : Nat := 5

def MIN_BLOB_WIDTH : Nat := 15

def MIN_BLOB_HEIGHT : Nat := 8

def MIN_BLOB_AREA : Nat := 120

def EDGE_MARGIN : Nat := 18

def PIXEL_THRESHOLD : ℚ := 40

def BG_ALPHA : ℚ := 1 / 100

/-! ### Counter state machine (`CarDetector._update_count`)

The mutable fields `_car_present`, `_detect_streak`, `_clear_streak`,
`_car_count` become a record; the registered callback
`_on_car_counted` is modelled as a total function into `Except`, where an
`error` value plays the role of a raised Python exception.  The
`try/except` around the callback invocation is transcribed by returning
the caught error in the second component (the "logged" error) instead of
propagating it. -/

structure CounterState where
  car_present : Bool
  detect_streak : Nat
  clear_streak : Nat
  car_count : Nat
  deriving DecidableEq, Repr

/-- Transcription of `CarDetector._update_count` (car_detector.py lines
375-392), including the callback invocation.  The state mutation happens
before the callback is invoked, exactly as in the source; a callback
error is caught and returned as the logged component, never affecting the
already-updated state. -/
def update_count_cb (cb : Nat → Except String Unit) (s : CounterState)
    (vehicle_detected : Bool) : CounterState × Option String :=
  if vehicle_detected then
    let ds := s.detect_streak + 1
    if !s.car_present && decide (CONFIRM_FRAMES ≤ ds) then
      let s' : CounterState :=
        { car_present := true, detect_streak := ds, clear_streak := 0,
          car_count := s.car_count + 1 }
      match cb s'.car_count with
      | Except.ok _ => (s', none)
      | Except.error e => (s', some e)
    else
      ({ s with detect_streak := ds, clear_streak := 0 }, none)
  else
    let cs := s.clear_streak + 1
    if s.car_present && decide (CLEAR_FRAMES ≤ cs) then
      ({ s with car_present := false, detect_streak := 0, clear_streak := cs }, none)
    else
      ({ s with detect_streak := 0, clear_streak := cs }, none)

/-- The pure state transition of `_update_count` (the callback does not
influence the state fields; `update_count_cb_fst` below proves the two
transcriptions agree). -/
def update_count (s : CounterState) (vehicle_detected : Bool) : CounterState :=
  if vehicle_detected then
    let ds := s.detect_streak + 1
    if !s.car_present && decide (CONFIRM_FRAMES ≤ ds) then
      { car_present := true, detect_streak := ds, clear_streak := 0,
        car_count := s.car_count + 1 }
    else
      { s with detect_streak := ds, clear_streak := 0 }
  else
    let cs := s.clear_streak + 1
    if s.car_present && decide (CLEAR_FRAMES ≤ cs) then
      { s with car_present := false, detect_streak := 0, clear_streak := cs }
    else
      { s with detect_streak := 0, clear_streak := cs }

/-- `noTwoConsec bs` holds when `bs` never has two consecutive `true`
(detect) entries. -/
def noTwoConsec : List Bool → Bool
  | true :: true :: _ => false
  | _ :: rest => noTwoConsec rest
  | [] => true

/-! ### Camera stream lifecycle (`CameraStream`)

The fields of `CameraStream` relevant to the published-frame slot:
`_frame` (the current JPEG bytes or `None`), `_frame_id` (sequence
number), `_running`.  `stop()` (camera.py lines 155-160) sets
`_running = False`, terminates the subprocess and joins the worker; the
subprocess/thread handling is outside the state modelled here, and the
method does not touch `_frame` or `_frame_id`. -/

structure CamState where
  frame : Option (List Nat)
  frame_id : Nat
  running : Bool
  deriving DecidableEq, Repr

/-- `CameraStream.stop` restricted to the modelled fields: only
`_running` is written. -/
def cam_stop (s : CamState) : CamState :=
  { s with running := false }

/-- `CameraStream.get_frame`: returns `self._frame` under the lock. -/
def cam_get_frame (s : CamState) : Option (List Nat) :=
  s.frame

/-- The publish step at the end of `_capture_loop` (camera.py lines
143-145): replace the frame and increment the sequence number. -/
def cam_publish (s : CamState) (f : List Nat) : CamState :=
  { s with frame := some f, frame_id := s.frame_id + 1 }

/-! ### Frame slot and one polling reader (`generate_mjpeg`)

An interleaved run of the producer (publish steps, camera.py lines
143-145) and one consumer (`generate_mjpeg`, lines 166-185) is modelled
as a list of events applied to the pair of the shared slot and the
reader's local state.  The reader's `last_id` starts at `-1`, modelled as
`none` (distinct from every sequence number); it yields the current
frame exactly when the slot holds a frame whose id differs from
`last_id`. -/

structure SlotState where
  frame : Option (List Nat)
  seq : Nat
  deriving DecidableEq, Repr

structure ReaderState where
  last : Option Nat
  yields : List (Nat × List Nat)
  deriving DecidableEq, Repr

inductive CamEv where
  | publish (f : List Nat)
  | read
  deriving DecidableEq, Repr

def camStep : SlotState × ReaderState → CamEv → SlotState × ReaderState
  | (sl, rd), CamEv.publish f => ({ frame := some f, seq := sl.seq + 1 }, rd)
  | (sl, rd), CamEv.read =>
    match sl.frame with
    | none => (sl, rd)
    | some f =>
      if rd.last = some sl.seq then (sl, rd)
      else (sl, { last := some sl.seq, yields := rd.yields ++ [(sl.seq, f)] })

def camInit : SlotState × ReaderState :=
  ({ frame := none, seq := 0 }, { last := none, yields := [] })

def camRun (evs : List CamEv) : SlotState × ReaderState :=
  evs.foldl camStep camInit

/-- Invariant carried through interleaved publish/read runs: yielded
sequence numbers are strictly increasing, all are bounded by the
reader's `last_id`, and `last_id` never exceeds the slot's sequence. -/
def camInv (st : SlotState × ReaderState) : Prop :=
  List.Pairwise (· < ·) (st.2.yields.map Prod.fst) ∧
  (∀ p ∈ st.2.yields, ∃ l, st.2.last = some l ∧ p.1 ≤ l) ∧
  (∀ l, st.2.last = some l → l ≤ st.1.seq)

/-! ### Boolean grids and morphology (`CarDetector._erode`)

A mask is a total function `Nat → Nat → Bool` together with its
dimensions `h × w`; positions outside `[0,h) × [0,w)` are irrelevant to
the claims (each slice assignment guards its own index range).  The four
in-place numpy updates of one erosion iteration read from the old array
`res` and write into the copy, so they transcribe to four pointwise
guarded combinators applied in sequence. -/

abbrev Grid := Nat → Nat → Bool

/-- `new[1:, :] &= result[:-1, :]`: rows `1..h-1` are ANDed with the row
above. -/
def andFromAbove (h : Nat) (res new : Grid) : Grid :=
  fun i j => if 1 ≤ i ∧ i < h then new i j && res (i - 1) j else new i j

/-- `new[:-1, :] &= result[1:, :]`: rows `0..h-2` are ANDed with the row
below. -/
def andFromBelow (h : Nat) (res new : Grid) : Grid :=
  fun i j => if i + 1 < h then new i j && res (i + 1) j else new i j

/-- `new[:, 1:] &= result[:, :-1]`: columns `1..w-1` are ANDed with the
column to the left. -/
def andFromLeft (w : Nat) (res new : Grid) : Grid :=
  fun i j => if 1 ≤ j ∧ j < w then new i j && res i (j - 1) else new i j

/-- `new[:, :-1] &= result[:, 1:]`: columns `0..w-2` are ANDed with the
column to the right. -/
def andFromRight (w : Nat) (res new : Grid) : Grid :=
  fun i j => if j + 1 < w then new i j && res i (j + 1) else new i j

/-- One iteration of `CarDetector._erode` (car_detector.py lines
180-190): copy, then the four slice updates. -/
def erodeStep (h w : Nat) (res : Grid) : Grid :=
  andFromRight w res (andFromLeft w res (andFromBelow h res (andFromAbove h res res)))

/-- `CarDetector._erode(mask, iterations)`. -/
def erode (h w : Nat) (m : Grid) : Nat → Grid
  | 0 => m
  | n + 1 => erodeStep h w (erode h w m n)

/-- The claim's reading of one erosion iteration: a pixel stays set iff
it and all four direct neighbors are set, where a neighbor outside the
`h × w` bounds counts as unset. -/
def erodedOOBUnset (h w : Nat) (m : Grid) (i j : Nat) : Prop :=
  m i j = true ∧
  (0 < i ∧ m (i - 1) j = true) ∧ (i + 1 < h ∧ m (i + 1) j = true) ∧
  (0 < j ∧ m i (j - 1) = true) ∧ (j + 1 < w ∧ m i (j + 1) = true)

instance (h w : Nat) (m : Grid) (i j : Nat) : Decidable (erodedOOBUnset h w m i j) := by
  unfold erodedOOBUnset; infer_instance

/-! ### Background update (`CarDetector._detect_motion`, lines 299-320)

Pixel values are embedded as rationals (the source uses float32; the
claim is about which pixels are written and with which smoothing
formula, not about rounding).  `raw_mask = |roi - aligned_bg| >
PIXEL_THRESHOLD`, then the edge margin is forced to `False` when the ROI
is large enough, and `still = ~raw_mask` selects the pixels whose
background value is advanced by exponential smoothing. -/

abbrev GridQ := Nat → Nat → ℚ

def rawMaskOf (roi bg : GridQ) : Grid :=
  fun i j => decide (PIXEL_THRESHOLD < |roi i j - bg i j|)

/-- The four in-place margin assignments guarded by
`2 * EDGE_MARGIN < h and 2 * EDGE_MARGIN < w`. -/
def edgeSuppress (h w : Nat) (mask : Grid) : Grid :=
  if 2 * EDGE_MARGIN < h ∧ 2 * EDGE_MARGIN < w then
    fun i j =>
      if i < EDGE_MARGIN ∨ h - EDGE_MARGIN ≤ i ∨ j < EDGE_MARGIN ∨ w - EDGE_MARGIN ≤ j then
        false
      else mask i j
  else mask

/-- `self._bg_frame[still] = BG_ALPHA * roi[still] + (1 - BG_ALPHA) *
self._bg_frame[still]` for `still = ~raw_mask`. -/
def bgMaskedUpdate (bg roi : GridQ) (still : Grid) : GridQ :=
  fun i j =>
    if still i j then BG_ALPHA * roi i j + (1 - BG_ALPHA) * bg i j else bg i j

/-- The background-update portion of one `_detect_motion` cycle past
warm-up: build the raw mask from the (aligned) difference, suppress the
edge margin, and advance the background on the still pixels. -/
def detectBgStep (h w : Nat) (roi bg : GridQ) : GridQ :=
  let m := edgeSuppress h w (rawMaskOf roi bg)
  bgMaskedUpdate bg roi (fun i j => !(m i j))

/-! ### Blob extraction (`CarDetector._find_runs`, `_find_largest_blob`)

The mask handed to `_find_largest_blob` is the cleaned `h × w` boolean
ROI mask.  `np.sum(mask, axis=0)` becomes a per-column count over the row
range, runs are extracted exactly as in `_find_runs`, and Python's stable
`list.sort(key=width, reverse=True)` becomes a stable insertion sort in
descending width order (an element is inserted before every element of
smaller or equal width already present, all of which come later in the
original order). -/

/-- Width (or height) of a half-open run `(start, stop)`. -/
def runWidth (r : Nat × Nat) : Nat := r.2 - r.1

/-- `CarDetector._find_runs` (car_detector.py lines 204-216), with the
running index and the optional open-run start made explicit. -/
def findRunsAux : List Bool → Nat → Option Nat → List (Nat × Nat)
  | [], _, none => []
  | [], i, some s => [(s, i)]
  | b :: rest, i, none =>
    if b then findRunsAux rest (i + 1) (some i) else findRunsAux rest (i + 1) none
  | b :: rest, i, some s =>
    if b then findRunsAux rest (i + 1) (some s)
    else (s, i) :: findRunsAux rest (i + 1) none

def find_runs (arr : List Bool) : List (Nat × Nat) :=
  findRunsAux arr 0 none

/-- Stable insertion in descending-width order. -/
def insertWidthDesc (x : Nat × Nat) : List (Nat × Nat) → List (Nat × Nat)
  | [] => [x]
  | y :: ys => if runWidth y ≤ runWidth x then x :: y :: ys else y :: insertWidthDesc x ys

/-- `col_runs.sort(key=lambda r: r[1] - r[0], reverse=True)` (stable). -/
def sortWidthDesc : List (Nat × Nat) → List (Nat × Nat)
  | [] => []
  | x :: xs => insertWidthDesc x (sortWidthDesc xs)

/-- Number of set pixels of column `j` among rows `0..h-1`
(`col_counts = np.sum(mask, axis=0)`). -/
def colCount (h : Nat) (m : Grid) (j : Nat) : Nat :=
  ((List.range h).filter (fun i => m i j)).length

/-- `active_cols = col_counts >= 2` as a `w`-element boolean list. -/
def activeCols (h w : Nat) (m : Grid) : List Bool :=
  (List.range w).map (fun j => decide (2 ≤ colCount h m j))

/-- `row_has_motion = np.any(mask[:, col_start:col_end], axis=1)`. -/
def rowFlags (h : Nat) (m : Grid) (cs ce : Nat) : List Bool :=
  (List.range h).map (fun i => (List.range' cs (ce - cs)).any (fun j => m i j))

/-- Python's `max(row_runs, key=height)` over a nonempty list: the fold
keeps the accumulator on ties, returning the first maximum. -/
def bestRowRun (r : Nat × Nat) (rs : List (Nat × Nat)) : Nat × Nat :=
  rs.foldl (fun a b => if runWidth a < runWidth b then b else a) r

/-- Pixel count of the sub-rectangle rows `[rs, re) × [cs, ce)`. -/
def countRect (m : Grid) (rs re cs ce : Nat) : Nat :=
  (((List.range' rs (re - rs)).map
    (fun i => ((List.range' cs (ce - cs)).filter (fun j => m i j)).length)).sum)

/-- The `for col_start, col_end in col_runs:` loop of
`_find_largest_blob`, over the already-sorted runs; `break` on a narrow
run, `continue` on a failed height or area check. -/
def blobLoop (h : Nat) (m : Grid) (rx ry : Nat) :
    List (Nat × Nat) → Option (Nat × Nat × Nat × Nat) × Nat
  | [] => (none, 0)
  | (cs, ce) :: rest =>
    if ce - cs < MIN_BLOB_WIDTH then (none, 0)
    else
      match find_runs (rowFlags h m cs ce) with
      | [] => blobLoop h m rx ry rest
      | r :: rs =>
        let best := bestRowRun r rs
        if best.2 - best.1 < MIN_BLOB_HEIGHT then blobLoop h m rx ry rest
        else
          let area := countRect m best.1 best.2 cs ce
          if area < MIN_BLOB_AREA then blobLoop h m rx ry rest
          else (some (cs + rx, best.1 + ry, ce + rx, best.2 + ry), area)

/-- `CarDetector._find_largest_blob` (car_detector.py lines 330-373). -/
def find_largest_blob (h w : Nat) (m : Grid) (rx ry : Nat) :
    Option (Nat × Nat × Nat × Nat) × Nat :=
  let colRuns := find_runs (activeCols h w m)
  if colRuns = [] then (none, 0)
  else blobLoop h m rx ry (sortWidthDesc colRuns)

/-- The spec's wording of the same policy: among the maximal active
column runs ordered by descending width, the first one of width ≥ 15
whose tallest motion-row run has height ≥ 8 and whose sub-rectangle
holds ≥ 120 set pixels. -/
def runQualifies (h : Nat) (m : Grid) (r : Nat × Nat) : Bool :=
  decide (MIN_BLOB_WIDTH ≤ r.2 - r.1) &&
    match find_runs (rowFlags h m r.1 r.2) with
    | [] => false
    | x :: xs =>
      let best := bestRowRun x xs
      decide (MIN_BLOB_HEIGHT ≤ best.2 - best.1) &&
        decide (MIN_BLOB_AREA ≤ countRect m best.1 best.2 r.1 r.2)

/-- Blob extraction as the spec phrases it: the first qualifying run in
width-descending order, or no blob. -/
def blobSpec (h w : Nat) (m : Grid) (rx ry : Nat) :
    Option (Nat × Nat × Nat × Nat) × Nat :=
  match (sortWidthDesc (find_runs (activeCols h w m))).find? (runQualifies h m) with
  | none => (none, 0)
  | some (cs, ce) =>
    match find_runs (rowFlags h m cs ce) with
    | [] => (none, 0)
    | x :: xs =>
      let best := bestRowRun x xs
      (some (cs + rx, best.1 + ry, ce + rx, best.2 + ry),
        countRect m best.1 best.2 cs ce)

/-! ### Byte-stream frame reassembly (`CameraStream._capture_loop`)

Bytes are naturals, buffers are byte lists.  `bytes.find(pat, i)` is a
linear scan `findFrom`; the inner `while True:` of the capture loop
(camera.py lines 128-145) is `processBuf`, which returns the list of
frames published while consuming the buffer together with the buffer
left behind.  Both are written with structural fuel so that they compute
by evaluation; the fuel is always sufficient (each publication removes at
least four bytes, each scan step advances the index). -/

def JSTART : List Nat := [255, 216]

def JEND : List Nat := [255, 217]

/-- The two-byte (in general `pat.length`-byte) window of `buf` at `i`
equals `pat`. -/
def matchAt (buf pat : List Nat) (i : Nat) : Bool :=
  decide ((buf.drop i).take pat.length = pat)

def findFromFuel : Nat → List Nat → List Nat → Nat → Option Nat
  | 0, _, _, _ => none
  | fuel + 1, buf, pat, i =>
    if i + pat.length ≤ buf.length then
      if matchAt buf pat i then some i else findFromFuel fuel buf pat (i + 1)
    else none

/-- `buf.find(pat, i)`: the least `j ≥ i` with a full match of `pat` at
`j`, if any. -/
def findFrom (buf pat : List Nat) (i : Nat) : Option Nat :=
  findFromFuel (buf.length + 1 - i) buf pat i

def processFuel : Nat → List Nat → List (List Nat) × List Nat
  | 0, buf => ([], buf)
  | fuel + 1, buf =>
    match findFrom buf JSTART 0 with
    | none => ([], [])
    | some s =>
      match findFrom buf JEND (s + 2) with
      | none => ([], buf.drop s)
      | some e =>
        let r := processFuel fuel (buf.drop (e + 2))
        ((buf.take (e + 2)).drop s :: r.1, r.2)

/-- The inner reassembly loop run to completion on the current buffer:
the frames published (in order) and the remaining buffer.  On `no start
marker` the buffer is cleared; on `start but no end` the bytes before the
start are dropped (`buf.drop s` is the identity when `s = 0`, matching
the `if start > 0` guard). -/
def processBuf (buf : List Nat) : List (List Nat) × List Nat :=
  processFuel buf.length buf

/-- One outer iteration of the capture loop from the reader's point of
view: append the chunk read from ffmpeg, then run the inner loop,
accumulating the published frames. -/
def feedChunk (st : List (List Nat) × List Nat) (c : List Nat) :
    List (List Nat) × List Nat :=
  let r := processBuf (st.2 ++ c)
  (st.1 ++ r.1, r.2)

/-- Feed a whole chunk sequence starting from an empty buffer; the first
component is every frame published, in order. -/
def captureRun (chunks : List (List Nat)) : List (List Nat) × List Nat :=
  chunks.foldl feedChunk ([], [])

/-- A valid marker-delimited JPEG frame: starts with `FFD8`, and the
first occurrence of `FFD9` at or after index 2 is its final two bytes
(so it ends with `FFD9` and has no interior `FFD9`). -/
def validFrame (f : List Nat) : Bool :=
  decide (4 ≤ f.length) && matchAt f JSTART 0 &&
    decide (findFrom f JEND 2 = some (f.length - 2))

/-- Concatenation of a list of byte strings (frames or chunks). -/
def concatB : List (List Nat) → List Nat
  | [] => []
  | x :: xs => x ++ concatB xs

/-- Byte offsets at which each frame of the concatenated stream starts. -/
def frameStarts : List (List Nat) → List Nat
  | [] => []
  | f :: fs => 0 :: (frameStarts fs).map (· + f.length)

/-- Cumulative byte counts at the chunk boundaries (after each chunk). -/
def cuts : List (List Nat) → List Nat
  | [] => []
  | c :: cs => c.length :: (cuts cs).map (· + c.length)

/-- Reference splitter: peel whole frames off the front of a byte prefix
`q` of the concatenated stream, returning the whole frames contained in
`q` and the leftover partial bytes. -/
def splitFrames : List (List Nat) → List Nat → List (List Nat) × List Nat
  | [], q => ([], q)
  | f :: fs, q =>
    if f.length ≤ q.length then
      let r := splitFrames fs (q.drop f.length)
      (f :: r.1, r.2)
    else ([], q)

/-- Invariant tying the reassembly buffer to the not-yet-published
frames: the buffer is a proper prefix of the next frame (or empty), and
is never the single byte that a start-marker split would leave. -/
def GoodState : List (List Nat) → List Nat → Prop
  | [], p => p = []
  | f :: _, p => ∃ n, p = f.take n ∧ n < f.length ∧ n ≠ 1

/-! ## Helper lemmas -/

/-- The state component of `_update_count` does not depend on the
callback's outcome: the mutation happens before the callback runs and is
kept when the callback raises. -/
theorem update_count_cb_fst (cb : Nat → Except String Unit) (s : CounterState)
    (d : Bool) : (update_count_cb cb s d).1 = update_count s d := by
  unfold update_count update_count_cb
  cases d <;> dsimp only <;>
    cases hcb : cb (s.car_count + 1) <;> split <;> split <;> rfl

/-- Detection sequences without two consecutive detections never change
the count nor establish presence, starting from an absent state with a
zero detect streak. -/
theorem noTwoConsec_foldl (bs : List Bool) (h : noTwoConsec bs = true)
    (cs cnt : Nat) :
    (bs.foldl update_count ⟨false, 0, cs, cnt⟩).car_count = cnt ∧
    (bs.foldl update_count ⟨false, 0, cs, cnt⟩).car_present = false := by
  match bs with
  | [] => exact ⟨rfl, rfl⟩
  | [true] => exact ⟨rfl, rfl⟩
  | true :: true :: rest => simp [noTwoConsec] at h
  | true :: false :: rest =>
    have h' : noTwoConsec rest = true := by
      simpa [noTwoConsec] using h
    have hstep : (true :: false :: rest).foldl update_count ⟨false, 0, cs, cnt⟩ =
        rest.foldl update_count ⟨false, 0, 1, cnt⟩ := rfl
    rw [hstep]
    exact noTwoConsec_foldl rest h' 1 cnt
  | false :: rest =>
    have h' : noTwoConsec rest = true := by
      simpa [noTwoConsec] using h
    have hstep : (false :: rest).foldl update_count ⟨false, 0, cs, cnt⟩ =
        rest.foldl update_count ⟨false, 0, cs + 1, cnt⟩ := rfl
    rw [hstep]
    exact noTwoConsec_foldl rest h' (cs + 1) cnt
termination_by bs.length

/-! ## Claim theorems -/

/-- C2: from the initial absent state with count `c`, the sequence
`[detect]*2 ++ [clear]*10` increments the count exactly once, at the 2nd
detecting cycle; presence clears exactly at the 5th consecutive clear
cycle; and any sequence with never two consecutive detects produces zero
increments. -/
theorem counting_hysteresis (c : Nat) :
    (update_count ⟨false, 0, 0, c⟩ true).car_count = c ∧
    (List.foldl update_count ⟨false, 0, 0, c⟩ [true, true]).car_count = c + 1 ∧
    (List.foldl update_count ⟨false, 0, 0, c⟩
      ([true, true] ++ List.replicate 10 false)).car_count = c + 1 ∧
    (List.foldl update_count ⟨false, 0, 0, c⟩
      ([true, true] ++ List.replicate 4 false)).car_present = true ∧
    (List.foldl update_count ⟨false, 0, 0, c⟩
      ([true, true] ++ List.replicate 5 false)).car_present = false ∧
    (∀ bs : List Bool, noTwoConsec bs = true →
      (List.foldl update_count ⟨false, 0, 0, c⟩ bs).car_count = c) :=
  ⟨rfl, rfl, rfl, rfl, rfl, fun bs h => (noTwoConsec_foldl bs h 0 c).1⟩

/-- Witness for C2 at count 3 and a concrete alternating sequence. -/
theorem counting_hysteresis_witness :
    (List.foldl update_count ⟨false, 0, 0, 3⟩ [true, true]).car_count = 3 + 1 ∧
    (List.foldl update_count ⟨false, 0, 0, 3⟩
      [true, false, true, false, true]).car_count = 3 :=
  ⟨(counting_hysteresis 3).2.1,
   (counting_hysteresis 3).2.2.2.2.2 [true, false, true, false, true] (by decide)⟩

/-- C9: when the registered callback raises on an Absent-to-Present
transition, `_update_count` still returns (the error is caught: the
second component records the logged error instead of an exception
escaping), and the already-performed transition and count increment are
retained, identical to the state produced with a succeeding callback. -/
theorem callback_error_isolated (s : CounterState) (cb : Nat → Except String Unit)
    (e : String) (hAbs : s.car_present = false)
    (hConf : CONFIRM_FRAMES ≤ s.detect_streak + 1)
    (hcb : cb (s.car_count + 1) = Except.error e) :
    (update_count_cb cb s true).1.car_present = true ∧
    (update_count_cb cb s true).1.car_count = s.car_count + 1 ∧
    (update_count_cb cb s true).1 = update_count s true ∧
    (update_count_cb cb s true).2 = some e := by
  have hfst := update_count_cb_fst cb s true
  unfold update_count_cb
  dsimp only
  rw [hAbs]
  simp only [Bool.not_false, Bool.true_and, decide_eq_true_eq, if_pos hConf, hcb]
  refine ⟨rfl, rfl, ?_, rfl⟩
  rw [← hfst]
  unfold update_count_cb
  dsimp only
  rw [hAbs]
  simp only [Bool.not_false, Bool.true_and, decide_eq_true_eq, if_pos hConf, hcb]

/-- Witness for C9: a concrete absent state one cycle short of
confirmation and a callback that always raises. -/
theorem callback_error_isolated_witness :
    (update_count_cb (fun _ => Except.error "boom") ⟨false, 1, 0, 0⟩ true).1.car_present = true ∧
    (update_count_cb (fun _ => Except.error "boom") ⟨false, 1, 0, 0⟩ true).1.car_count = 0 + 1 ∧
    (update_count_cb (fun _ => Except.error "boom") ⟨false, 1, 0, 0⟩ true).1 =
      update_count ⟨false, 1, 0, 0⟩ true ∧
    (update_count_cb (fun _ => Except.error "boom") ⟨false, 1, 0, 0⟩ true).2 = some "boom" :=
  callback_error_isolated ⟨false, 1, 0, 0⟩ (fun _ => Except.error "boom") "boom"
    rfl (by decide) rfl

/-- C10: every `_update_count` call leaves at least one streak at zero,
never decreases the count, increases it by at most one, and increases it
only on an Absent-to-Present transition. -/
theorem counter_invariants (s : CounterState) (d : Bool) :
    ((update_count s d).detect_streak = 0 ∨ (update_count s d).clear_streak = 0) ∧
    s.car_count ≤ (update_count s d).car_count ∧
    (update_count s d).car_count ≤ s.car_count + 1 ∧
    ((update_count s d).car_count = s.car_count + 1 →
      s.car_present = false ∧ (update_count s d).car_present = true) := by
  unfold update_count
  by_cases h2 : CONFIRM_FRAMES ≤ s.detect_streak + 1 <;>
    by_cases h5 : CLEAR_FRAMES ≤ s.clear_streak + 1 <;>
      cases d <;> cases hp : s.car_present <;>
        simp [hp, h2, h5]

/-- Witness for C10's transition implication at a concrete input. -/
theorem counter_invariants_witness :
    (update_count ⟨false, 1, 0, 0⟩ true).car_present = true ∧
    (update_count ⟨false, 1, 0, 0⟩ true).car_count = 0 + 1 :=
  ⟨((counter_invariants ⟨false, 1, 0, 0⟩ true).2.2.2 (by decide)).2, by decide⟩

/-- C4 counterexample: after `stop()` on a state holding a published
frame, `get_frame` still returns that frame, not absent — the claim that
every subsequent `getCurrentFrame()` returns absent is false. -/
theorem stop_clears_frame_counterexample :
    cam_get_frame (cam_stop { frame := some [7], frame_id := 3, running := true }) ≠ none ∧
    cam_get_frame (cam_stop { frame := some [7], frame_id := 3, running := true }) = some [7] := by
  exact ⟨by decide, rfl⟩

/-- C4 amended: `stop()` clears only the running flag and leaves the
published frame slot untouched, so `get_frame` keeps returning the last
published (stale) frame until a later publish replaces it. -/
theorem stop_retains_frame (s : CamState) (f : List Nat) :
    cam_get_frame (cam_stop s) = cam_get_frame s ∧
    (cam_stop s).running = false ∧
    (cam_stop s).frame_id = s.frame_id ∧
    cam_get_frame (cam_publish s f) = some f := by
  exact ⟨rfl, rfl, rfl, rfl⟩

/-- C7: in a detection cycle past warm-up, a pixel inside the
(post-edge-suppression) raw motion mask keeps its background value
unchanged, and a pixel outside it is replaced by
`BG_ALPHA * roi + (1 - BG_ALPHA) * bg` with `BG_ALPHA = 1/100`. -/
theorem background_update_still_pixels (h w : Nat) (roi bg : GridQ) (i j : Nat)
    (_hi : i < h) (_hj : j < w) :
    (edgeSuppress h w (rawMaskOf roi bg) i j = true →
      detectBgStep h w roi bg i j = bg i j) ∧
    (edgeSuppress h w (rawMaskOf roi bg) i j = false →
      detectBgStep h w roi bg i j =
        BG_ALPHA * roi i j + (1 - BG_ALPHA) * bg i j) := by
  unfold detectBgStep bgMaskedUpdate
  constructor <;> intro hm <;> simp [hm]

/-- Witness for C7 on a concrete interior pixel of a flat 100×100 ROI:
the pixel is still, so its background advances by the smoothing rule. -/
theorem background_update_still_pixels_witness :
    detectBgStep 100 100 (fun _ _ => (0 : ℚ)) (fun _ _ => (0 : ℚ)) 50 50 =
      BG_ALPHA * (fun _ _ => (0 : ℚ)) 50 50 +
        (1 - BG_ALPHA) * (fun _ _ => (0 : ℚ)) 50 50 :=
  (background_update_still_pixels 100 100 (fun _ _ => 0) (fun _ _ => 0) 50 50
    (by decide) (by decide)).2 (by
      unfold edgeSuppress rawMaskOf
      norm_num [EDGE_MARGIN, PIXEL_THRESHOLD])

/-- C3 counterexample: on a 1×1 all-true mask the single (border) pixel
survives one erosion iteration, though the claim (out-of-bounds
neighbors count as unset, so border pixels are cleared) requires it to
be unset. -/
theorem erosion_border_counterexample :
    erode 1 1 (fun _ _ => true) 1 0 0 = true ∧
    ¬ erodedOOBUnset 1 1 (fun _ _ => true) 0 0 := by
  exact ⟨by decide, by decide⟩

/-- C3 amended: one erosion iteration keeps a pixel set iff the pixel
and each of its four in-bounds direct neighbors are set — a neighbor
outside the mask bounds imposes no constraint (counts as set), so border
pixels are not automatically cleared. -/
theorem erosion_oob_as_set (h w : Nat) (m : Grid) (i j : Nat)
    (hi : i < h) (hj : j < w) :
    (erode h w m 1 i j = true ↔
      (m i j = true ∧ (i = 0 ∨ m (i - 1) j = true) ∧
        (i + 1 = h ∨ m (i + 1) j = true) ∧
        (j = 0 ∨ m i (j - 1) = true) ∧
        (j + 1 = w ∨ m i (j + 1) = true))) := by
  show erodeStep h w m i j = true ↔ _
  unfold erodeStep andFromRight andFromLeft andFromBelow andFromAbove
  have e1 : (i = 0) ↔ ¬ 1 ≤ i := by omega
  have e2 : (i + 1 = h) ↔ ¬ i + 1 < h := by omega
  have e3 : (j = 0) ↔ ¬ 1 ≤ j := by omega
  have e4 : (j + 1 = w) ↔ ¬ j + 1 < w := by omega
  rw [e1, e2, e3, e4]
  by_cases c1 : 1 ≤ i <;> by_cases c2 : i + 1 < h <;>
    by_cases c3 : 1 ≤ j <;> by_cases c4 : j + 1 < w <;>
      simp [c1, c2, c3, c4, hi, hj, and_assoc, Bool.and_assoc]

/-- Witness for C3 amended: interior pixel of a 3×3 all-true mask stays
set after one erosion iteration. -/
theorem erosion_oob_as_set_witness :
    erode 3 3 (fun _ _ => true) 1 1 1 = true :=
  (erosion_oob_as_set 3 3 (fun _ _ => true) 1 1 (by decide) (by decide)).mpr
    (by decide)

theorem camInv_init : camInv camInit := by
  refine ⟨List.Pairwise.nil, ?_, ?_⟩
  · intro p hp
    simp [camInit] at hp
  · intro l hl
    simp [camInit] at hl

theorem camInv_step (st : SlotState × ReaderState) (e : CamEv)
    (h : camInv st) : camInv (camStep st e) := by
  obtain ⟨sl, rd⟩ := st
  obtain ⟨hpw, hbnd, hlast⟩ := h
  cases e with
  | publish f =>
    refine ⟨hpw, hbnd, ?_⟩
    intro l hl
    exact Nat.le_succ_of_le (hlast l hl)
  | read =>
    cases hf : sl.frame with
    | none =>
      simp only [camStep, hf]
      exact ⟨hpw, hbnd, hlast⟩
    | some f =>
      simp only [camStep, hf]
      split
      · exact ⟨hpw, hbnd, hlast⟩
      · next hne =>
        refine ⟨?_, ?_, ?_⟩
        · simp only [List.map_append]
          rw [List.pairwise_append]
          refine ⟨hpw, List.pairwise_singleton _ _, ?_⟩
          intro a ha b hb
          simp only [List.map_cons, List.map_nil, List.mem_singleton] at hb
          subst hb
          obtain ⟨p, hp, rfl⟩ := List.mem_map.mp ha
          obtain ⟨l, hl, hle⟩ := hbnd p hp
          have hlsl : l ≤ sl.seq := hlast l hl
          have : l ≠ sl.seq := fun hc => hne (hc ▸ hl)
          omega
        · intro p hp
          rcases List.mem_append.mp hp with hmem | hmem
          · obtain ⟨l, hl, hle⟩ := hbnd p hmem
            exact ⟨sl.seq, rfl, le_trans hle (hlast l hl)⟩
          · simp only [List.mem_singleton] at hmem
            subst hmem
            exact ⟨sl.seq, rfl, le_refl _⟩
        · intro l hl
          dsimp only at hl ⊢
          simp only [Option.some_inj] at hl
          omega

theorem camInv_run (evs : List CamEv) :
    ∀ st, camInv st → camInv (evs.foldl camStep st) := by
  induction evs with
  | nil => intro st h; exact h
  | cons e rest ih =>
    intro st h
    exact ih (camStep st e) (camInv_step st e h)

/-- A single step only ever appends to the reader's yield list. -/
theorem camStep_yields_extend (st : SlotState × ReaderState) (e : CamEv) :
    ∃ extra, (camStep st e).2.yields = st.2.yields ++ extra := by
  obtain ⟨sl, rd⟩ := st
  cases e with
  | publish f => exact ⟨[], by simp [camStep]⟩
  | read =>
    cases hf : sl.frame with
    | none => exact ⟨[], by simp [camStep, hf]⟩
    | some f =>
      simp only [camStep, hf]
      split
      · exact ⟨[], by simp⟩
      · exact ⟨[(sl.seq, f)], rfl⟩

/-- C8: every interleaved run of the publisher and one polling reader
yields pairwise strictly increasing sequence numbers (no decrease, no
duplicate); each publish step increments the slot's sequence number by
exactly one; and a step never rewrites an already-yielded entry — the
yield list only grows. -/
theorem frame_sequence_monotone (evs : List CamEv) :
    List.Pairwise (· < ·) ((camRun evs).2.yields.map Prod.fst) ∧
    (∀ f, (camRun (evs ++ [CamEv.publish f])).1.seq = (camRun evs).1.seq + 1) ∧
    (∀ e, ∃ extra, (camRun (evs ++ [e])).2.yields = (camRun evs).2.yields ++ extra) := by
  refine ⟨(camInv_run evs camInit camInv_init).1, ?_, ?_⟩
  · intro f
    unfold camRun
    rw [List.foldl_append]
    rfl
  · intro e
    unfold camRun
    rw [List.foldl_append]
    exact camStep_yields_extend (evs.foldl camStep camInit) e

theorem insertWidthDesc_mem (x z : Nat × Nat) (l : List (Nat × Nat)) :
    z ∈ insertWidthDesc x l ↔ z = x ∨ z ∈ l := by
  induction l with
  | nil => simp [insertWidthDesc]
  | cons y ys ih =>
    rw [insertWidthDesc]
    split
    · simp [or_left_comm, or_assoc]
    · simp only [List.mem_cons, ih]
      tauto

theorem insertWidthDesc_pairwise (x : Nat × Nat) (l : List (Nat × Nat))
    (hl : l.Pairwise (fun a b => runWidth b ≤ runWidth a)) :
    (insertWidthDesc x l).Pairwise (fun a b => runWidth b ≤ runWidth a) := by
  induction l with
  | nil => simp [insertWidthDesc]
  | cons y ys ih =>
    rw [insertWidthDesc]
    rw [List.pairwise_cons] at hl
    obtain ⟨hy, hys⟩ := hl
    split
    · next hxy =>
      rw [List.pairwise_cons]
      refine ⟨?_, List.Pairwise.cons hy hys⟩
      intro z hz
      rcases List.mem_cons.mp hz with rfl | hz
      · exact hxy
      · exact le_trans (hy z hz) hxy
    · next hxy =>
      rw [List.pairwise_cons]
      refine ⟨?_, ih hys⟩
      intro z hz
      rcases (insertWidthDesc_mem x z ys).mp hz with rfl | hz
      · omega
      · exact hy z hz

theorem sortWidthDesc_pairwise (l : List (Nat × Nat)) :
    (sortWidthDesc l).Pairwise (fun a b => runWidth b ≤ runWidth a) := by
  induction l with
  | nil => exact List.Pairwise.nil
  | cons x xs ih => exact insertWidthDesc_pairwise x (sortWidthDesc xs) ih

/-- On a width-descending run list, the `break`-on-narrow-run loop of
`_find_largest_blob` computes the first-qualifying-run search of the
spec. -/
theorem blobLoop_eq_find (h : Nat) (m : Grid) (rx ry : Nat)
    (l : List (Nat × Nat))
    (hl : l.Pairwise (fun a b => runWidth b ≤ runWidth a)) :
    blobLoop h m rx ry l =
      (match l.find? (runQualifies h m) with
       | none => (none, 0)
       | some (cs, ce) =>
         match find_runs (rowFlags h m cs ce) with
         | [] => (none, 0)
         | x :: xs =>
           let best := bestRowRun x xs
           (some (cs + rx, best.1 + ry, ce + rx, best.2 + ry),
             countRect m best.1 best.2 cs ce)) := by
  induction l with
  | nil => rfl
  | cons r rest ih =>
    obtain ⟨cs, ce⟩ := r
    rw [List.pairwise_cons] at hl
    obtain ⟨hhead, hrest⟩ := hl
    rw [blobLoop]
    by_cases hw : ce - cs < MIN_BLOB_WIDTH
    · have hq : ¬ runQualifies h m (cs, ce) = true := by
        unfold runQualifies
        simp only [Bool.and_eq_true, decide_eq_true_eq]
        rintro ⟨h15, -⟩
        omega
      have hnone : rest.find? (runQualifies h m) = none := by
        rw [List.find?_eq_none]
        intro z hz
        have hwz := hhead z hz
        unfold runWidth at hwz
        unfold runQualifies
        simp only [Bool.and_eq_true, decide_eq_true_eq]
        rintro ⟨h15, -⟩
        omega
      rw [if_pos hw, List.find?_cons_of_neg _ hq, hnone]
    · rw [if_neg hw]
      cases hrr : find_runs (rowFlags h m cs ce) with
      | nil =>
        have hq : ¬ runQualifies h m (cs, ce) = true := by
          unfold runQualifies
          dsimp only
          rw [hrr]
          simp
        rw [List.find?_cons_of_neg _ hq]
        exact ih hrest
      | cons x xs =>
        by_cases hh : (bestRowRun x xs).2 - (bestRowRun x xs).1 < MIN_BLOB_HEIGHT
        · have hq : ¬ runQualifies h m (cs, ce) = true := by
            unfold runQualifies
            dsimp only
            rw [hrr]
            simp only [Bool.and_eq_true, decide_eq_true_eq]
            rintro ⟨-, h8, -⟩
            omega
          dsimp only
          rw [if_pos hh, List.find?_cons_of_neg _ hq]
          exact ih hrest
        · by_cases ha : countRect m (bestRowRun x xs).1 (bestRowRun x xs).2 cs ce < MIN_BLOB_AREA
          · have hq : ¬ runQualifies h m (cs, ce) = true := by
              unfold runQualifies
              dsimp only
              rw [hrr]
              simp only [Bool.and_eq_true, decide_eq_true_eq]
              rintro ⟨-, -, h120⟩
              omega
            dsimp only
            rw [if_neg hh, if_pos ha, List.find?_cons_of_neg _ hq]
            exact ih hrest
          · have hq : runQualifies h m (cs, ce) = true := by
              unfold runQualifies
              dsimp only
              rw [hrr]
              simp only [Bool.and_eq_true, decide_eq_true_eq]
              exact ⟨by omega, by omega, by omega⟩
            dsimp only
            rw [if_neg hh, if_neg ha, List.find?_cons_of_pos _ hq]
            dsimp only
            rw [hrr]

/-- C6: `_find_largest_blob` implements the width-first greedy policy of
the spec (first qualifying maximal active-column run in width-descending
order, with the 15/8/120 thresholds, offset to full-frame coordinates);
a lone solid 20×10 rectangle is returned as exactly its bounding box,
and a rectangle shrunk to 14×7 is rejected. -/
theorem blob_extraction_policy :
    (∀ (h w : Nat) (m : Grid) (rx ry : Nat),
      find_largest_blob h w m rx ry = blobSpec h w m rx ry) ∧
    find_largest_blob 20 40 (fun i j => decide (5 ≤ i ∧ i < 15 ∧ 8 ≤ j ∧ j < 28))
      100 200 = (some (108, 205, 128, 215), 200) ∧
    find_largest_blob 20 40 (fun i j => decide (5 ≤ i ∧ i < 12 ∧ 8 ≤ j ∧ j < 22))
      100 200 = (none, 0) := by
  refine ⟨?_, by decide, by decide⟩
  intro h w m rx ry
  unfold find_largest_blob blobSpec
  by_cases hc : find_runs (activeCols h w m) = []
  · simp [hc, sortWidthDesc]
  · simp only [hc, if_false]
    exact blobLoop_eq_find h m rx ry _ (sortWidthDesc_pairwise _)

theorem findFrom_eq (buf pat : List Nat) (i : Nat) :
    findFrom buf pat i =
      if i + pat.length ≤ buf.length then
        (if matchAt buf pat i then some i else findFrom buf pat (i + 1))
      else none := by
  by_cases hc : i + pat.length ≤ buf.length
  · have h1 : buf.length + 1 - i = (buf.length - i) + 1 := by omega
    have h2 : buf.length + 1 - (i + 1) = buf.length - i := by omega
    rw [if_pos hc]
    unfold findFrom
    rw [h1, h2]
    simp only [findFromFuel, if_pos hc]
  · rw [if_neg hc]
    unfold findFrom
    cases h0 : buf.length + 1 - i with
    | zero => rfl
    | succ k => simp only [findFromFuel, if_neg hc]

theorem findFrom_some_facts (buf pat : List Nat) (i j : Nat)
    (h : findFrom buf pat i = some j) :
    i ≤ j ∧ j + pat.length ≤ buf.length ∧ matchAt buf pat j = true ∧
    (∀ k, i ≤ k → k < j → matchAt buf pat k = false) := by
  rw [findFrom_eq] at h
  by_cases hc : i + pat.length ≤ buf.length
  · rw [if_pos hc] at h
    cases hm : matchAt buf pat i
    · rw [hm] at h
      simp only [Bool.false_eq_true, if_false] at h
      obtain ⟨h1, h2, h3, h4⟩ := findFrom_some_facts buf pat (i + 1) j h
      refine ⟨by omega, h2, h3, ?_⟩
      intro k hk1 hk2
      rcases Nat.eq_or_lt_of_le hk1 with rfl | hlt
      · exact hm
      · exact h4 k (by omega) hk2
    · rw [hm] at h
      simp only [if_true, Option.some_inj] at h
      subst h
      exact ⟨Nat.le_refl _, hc, hm, fun k hk1 hk2 => absurd hk1 (by omega)⟩
  · rw [if_neg hc] at h
    exact absurd h (by simp)
termination_by buf.length + 1 - i
decreasing_by omega

theorem findFrom_eq_none_of (buf pat : List Nat) (i : Nat)
    (h : ∀ k, i ≤ k → k + pat.length ≤ buf.length → matchAt buf pat k = false) :
    findFrom buf pat i = none := by
  rw [findFrom_eq]
  by_cases hc : i + pat.length ≤ buf.length
  · rw [if_pos hc, h i (Nat.le_refl _) hc]
    simp only [Bool.false_eq_true, if_false]
    exact findFrom_eq_none_of buf pat (i + 1) (fun k hk => h k (by omega))
  · rw [if_neg hc]
termination_by buf.length + 1 - i
decreasing_by omega

theorem matchAt_append (f rest pat : List Nat) (i : Nat)
    (hle : i + pat.length ≤ f.length) :
    matchAt (f ++ rest) pat i = matchAt f pat i := by
  unfold matchAt
  rw [List.drop_append_of_le_length (show i ≤ f.length by omega),
    List.take_append_of_le_length (by rw [List.length_drop]; omega)]

theorem matchAt_take (f pat : List Nat) (i n : Nat)
    (hle : i + pat.length ≤ n) :
    matchAt (f.take n) pat i = matchAt f pat i := by
  unfold matchAt
  rw [List.drop_take, List.take_take]
  have hmin : min pat.length (n - i) = pat.length := by omega
  rw [hmin]

theorem findFrom_append (f rest pat : List Nat) (i j : Nat)
    (h : findFrom f pat i = some j) :
    findFrom (f ++ rest) pat i = some j := by
  rw [findFrom_eq] at h
  by_cases hc : i + pat.length ≤ f.length
  · rw [if_pos hc] at h
    rw [findFrom_eq,
      if_pos (show i + pat.length ≤ (f ++ rest).length by
        rw [List.length_append]; omega),
      matchAt_append f rest pat i hc]
    cases hm : matchAt f pat i
    · rw [hm] at h
      simp only [Bool.false_eq_true, if_false] at h ⊢
      exact findFrom_append f rest pat (i + 1) j h
    · rw [hm] at h
      simpa using h
  · rw [if_neg hc] at h
    exact absurd h (by simp)
termination_by f.length + 1 - i
decreasing_by omega

theorem processFuel_congr (buf : List Nat) (f1 f2 : Nat)
    (h1 : buf.length ≤ f1) (h2 : buf.length ≤ f2) :
    processFuel f1 buf = processFuel f2 buf := by
  match f1, f2 with
  | 0, 0 => rfl
  | 0, k + 1 =>
    have hb : buf = [] := List.length_eq_zero.mp (by omega)
    subst hb
    rfl
  | k + 1, 0 =>
    have hb : buf = [] := List.length_eq_zero.mp (by omega)
    subst hb
    rfl
  | a + 1, b + 1 =>
    simp only [processFuel]
    cases hs : findFrom buf JSTART 0 with
    | none => rfl
    | some s =>
      dsimp only
      cases he : findFrom buf JEND (s + 2) with
      | none => rfl
      | some e =>
        dsimp only
        have hfacts := findFrom_some_facts buf JEND (s + 2) e he
        have he2 : e + 2 ≤ buf.length := by
          have := hfacts.2.1
          simpa [JEND] using this
        rw [processFuel_congr (buf.drop (e + 2)) a b
          (by rw [List.length_drop]; omega) (by rw [List.length_drop]; omega)]
termination_by buf.length
decreasing_by rw [List.length_drop]; omega

theorem processBuf_eq (buf : List Nat) :
    processBuf buf =
      match findFrom buf JSTART 0 with
      | none => ([], [])
      | some s =>
        match findFrom buf JEND (s + 2) with
        | none => ([], buf.drop s)
        | some e =>
          ((buf.take (e + 2)).drop s :: (processBuf (buf.drop (e + 2))).1,
            (processBuf (buf.drop (e + 2))).2) := by
  unfold processBuf
  cases hb : buf.length with
  | zero =>
    have hn : buf = [] := List.length_eq_zero.mp hb
    subst hn
    rfl
  | succ n =>
    simp only [processFuel]
    cases hs : findFrom buf JSTART 0 with
    | none => rfl
    | some s =>
      dsimp only
      cases he : findFrom buf JEND (s + 2) with
      | none => rfl
      | some e =>
        dsimp only
        have hfacts := findFrom_some_facts buf JEND (s + 2) e he
        have he2 : e + 2 ≤ buf.length := by
          have := hfacts.2.1
          simpa [JEND] using this
        rw [processFuel_congr (buf.drop (e + 2)) n (buf.drop (e + 2)).length
          (by rw [List.length_drop]; omega) (Nat.le_refl _)]

/-- Unpack the three components of frame validity. -/
theorem validFrame_facts (f : List Nat) (hf : validFrame f = true) :
    4 ≤ f.length ∧ matchAt f JSTART 0 = true ∧
    findFrom f JEND 2 = some (f.length - 2) := by
  unfold validFrame at hf
  simp only [Bool.and_eq_true, decide_eq_true_eq] at hf
  exact ⟨hf.1.1, hf.1.2, hf.2⟩

/-- A complete valid frame at the front of the buffer is published and
removed; the loop continues on the remainder. -/
theorem processBuf_cons (f rest : List Nat) (hf : validFrame f = true) :
    processBuf (f ++ rest) = (f :: (processBuf rest).1, (processBuf rest).2) := by
  obtain ⟨hlen, hstart, hend⟩ := validFrame_facts f hf
  have hJS : (JSTART : List Nat).length = 2 := rfl
  have hstart' : findFrom (f ++ rest) JSTART 0 = some 0 := by
    have hc : 0 + (JSTART : List Nat).length ≤ (f ++ rest).length := by
      rw [hJS, List.length_append]
      omega
    have hm : 0 + (JSTART : List Nat).length ≤ f.length := by
      rw [hJS]
      omega
    rw [findFrom_eq, if_pos hc, matchAt_append f rest JSTART 0 hm, hstart]
    rfl
  have hend' : findFrom (f ++ rest) JEND (0 + 2) = some (f.length - 2) := by
    simpa using findFrom_append f rest JEND 2 (f.length - 2) hend
  rw [processBuf_eq, hstart']
  dsimp only
  rw [hend']
  have h22 : f.length - 2 + 2 = f.length := by omega
  dsimp only
  rw [h22, List.drop_zero, List.take_left, List.drop_left]

/-- A proper partial frame other than the lone first marker byte is left
waiting in the buffer: the start marker is found at 0, no end marker
exists yet, and nothing before the start is dropped. -/
theorem processBuf_take (f : List Nat) (n : Nat) (hf : validFrame f = true)
    (hn : n < f.length) (hn1 : n ≠ 1) :
    processBuf (f.take n) = ([], f.take n) := by
  obtain ⟨hlen, hstart, hend⟩ := validFrame_facts f hf
  rcases Nat.eq_zero_or_pos n with rfl | hpos
  · rfl
  · have h2 : 2 ≤ n := by omega
    have hJS : (JSTART : List Nat).length = 2 := rfl
    have hstart' : findFrom (f.take n) JSTART 0 = some 0 := by
      have hc : 0 + (JSTART : List Nat).length ≤ (f.take n).length := by
        rw [hJS, List.length_take]
        omega
      have hm : 0 + (JSTART : List Nat).length ≤ n := by
        rw [hJS]
        omega
      rw [findFrom_eq, if_pos hc, matchAt_take f JSTART 0 n hm, hstart]
      rfl
    have hfacts := findFrom_some_facts f JEND 2 (f.length - 2) hend
    have hend' : findFrom (f.take n) JEND 2 = none := by
      apply findFrom_eq_none_of
      intro k hk2 hkle
      rw [List.length_take] at hkle
      have hj2 : (JEND : List Nat).length = 2 := rfl
      rw [hj2] at hkle
      have hkn : k + 2 ≤ n := by omega
      rw [matchAt_take f JEND k n (by omega)]
      exact hfacts.2.2.2 k hk2 (by omega)
    rw [processBuf_eq, hstart']
    dsimp only
    rw [hend', List.drop_zero]

theorem concatB_append (xs ys : List (List Nat)) :
    concatB (xs ++ ys) = concatB xs ++ concatB ys := by
  induction xs with
  | nil => simp [concatB]
  | cons x xs ih => rw [List.cons_append, concatB, concatB, ih, List.append_assoc]

theorem frameStarts_mem_append (gs fs : List (List Nat)) (s : Nat)
    (h : s ∈ frameStarts fs) : s + (concatB gs).length ∈ frameStarts (gs ++ fs) := by
  induction gs with
  | nil => simpa [concatB] using h
  | cons g gs ih =>
    have hmem := List.mem_map_of_mem (· + g.length) ih
    rw [List.cons_append, frameStarts]
    refine List.mem_cons_of_mem _ ?_
    have hlen : s + (concatB (g :: gs)).length =
        s + (concatB gs).length + g.length := by
      rw [concatB, List.length_append]
      omega
    rw [hlen]
    exact hmem

/-- Peeling whole frames off a prefix of the concatenated stream leaves
a suffix of the frame list and (unless it is the poisoned single byte) a
good partial-frame state. -/
theorem splitFrames_spec (fs : List (List Nat)) (q r : List Nat)
    (hv : ∀ f ∈ fs, validFrame f = true) (hq : q ++ r = concatB fs) :
    ∃ fs', fs = (splitFrames fs q).1 ++ fs' ∧
      (splitFrames fs q).2 ++ r = concatB fs' ∧
      ((splitFrames fs q).2.length ≠ 1 → GoodState fs' (splitFrames fs q).2) := by
  induction fs generalizing q with
  | nil =>
    rw [concatB] at hq
    obtain ⟨hq0, hr0⟩ := List.append_eq_nil.mp hq
    subst hq0
    subst hr0
    exact ⟨[], by simp [splitFrames], by simp [splitFrames, concatB],
      fun _ => by simp [splitFrames, GoodState]⟩
  | cons f fs ih =>
    rw [concatB] at hq
    by_cases hle : f.length ≤ q.length
    · have hq1 : q.take f.length = f := by
        have := congrArg (List.take f.length) hq
        rwa [List.take_append_of_le_length hle, List.take_left] at this
      have hq2 : q.drop f.length ++ r = concatB fs := by
        have := congrArg (List.drop f.length) hq
        rwa [List.drop_append_of_le_length hle, List.drop_left] at this
      obtain ⟨fs', h1, h2, h3⟩ :=
        ih (q.drop f.length) (fun g hg => hv g (List.mem_cons_of_mem f hg)) hq2
      refine ⟨fs', ?_, ?_, ?_⟩
      · rw [splitFrames, if_pos hle]
        dsimp only
        rw [List.cons_append, ← h1]
      · rw [splitFrames, if_pos hle]
        exact h2
      · rw [splitFrames, if_pos hle]
        exact h3
    · have hql : q = f.take q.length := by
        have := congrArg (List.take q.length) hq
        rwa [List.take_append_of_le_length (Nat.le_refl _), List.take_length,
          List.take_append_of_le_length (by omega)] at this
      refine ⟨f :: fs, ?_, ?_, ?_⟩
      · rw [splitFrames, if_neg hle]
        rfl
      · rw [splitFrames, if_neg hle]
        dsimp only
        rw [concatB]
        exact hq
      · intro h1
        rw [splitFrames, if_neg hle]
        dsimp only
        rw [splitFrames, if_neg hle] at h1
        dsimp only at h1
        exact ⟨q.length, hql, by omega, h1⟩

/-- A leftover of length one can only arise when the consumed byte count
sits exactly one past a frame start. -/
theorem splitFrames_leftover (fs : List (List Nat)) (q r : List Nat)
    (hq : q ++ r = concatB fs) (h1 : (splitFrames fs q).2.length = 1) :
    ∃ s ∈ frameStarts fs, q.length = s + 1 := by
  induction fs generalizing q with
  | nil =>
    rw [concatB] at hq
    obtain ⟨hq0, -⟩ := List.append_eq_nil.mp hq
    rw [splitFrames, hq0] at h1
    simp at h1
  | cons f fs ih =>
    rw [concatB] at hq
    by_cases hle : f.length ≤ q.length
    · have hq2 : q.drop f.length ++ r = concatB fs := by
        have := congrArg (List.drop f.length) hq
        rwa [List.drop_append_of_le_length hle, List.drop_left] at this
      rw [splitFrames, if_pos hle] at h1
      obtain ⟨s, hs, hlen⟩ := ih (q.drop f.length) hq2 h1
      rw [List.length_drop] at hlen
      refine ⟨s + f.length, ?_, by omega⟩
      rw [frameStarts]
      exact List.mem_cons_of_mem _ (List.mem_map_of_mem (· + f.length) hs)
    · rw [splitFrames, if_neg hle] at h1
      dsimp only at h1
      exact ⟨0, by rw [frameStarts]; exact List.mem_cons_self _ _, by omega⟩

/-- On a prefix of the concatenated valid-frame stream whose leftover is
not the poisoned single byte, the reassembly loop publishes exactly the
whole frames contained in the prefix and keeps the partial remainder. -/
theorem processBuf_splitFrames (fs : List (List Nat)) (q r : List Nat)
    (hv : ∀ f ∈ fs, validFrame f = true) (hq : q ++ r = concatB fs)
    (h1 : (splitFrames fs q).2.length ≠ 1) :
    processBuf q = splitFrames fs q := by
  induction fs generalizing q with
  | nil =>
    rw [concatB] at hq
    obtain ⟨hq0, -⟩ := List.append_eq_nil.mp hq
    subst hq0
    rfl
  | cons f fs ih =>
    rw [concatB] at hq
    have hvf : validFrame f = true := hv f (List.mem_cons_self _ _)
    by_cases hle : f.length ≤ q.length
    · have hq1 : q.take f.length = f := by
        have := congrArg (List.take f.length) hq
        rwa [List.take_append_of_le_length hle, List.take_left] at this
      have hsplit : q = f ++ q.drop f.length := by
        conv_lhs => rw [← List.take_append_drop f.length q]
        rw [hq1]
      have hq2 : q.drop f.length ++ r = concatB fs := by
        have := congrArg (List.drop f.length) hq
        rwa [List.drop_append_of_le_length hle, List.drop_left] at this
      rw [splitFrames, if_pos hle] at h1
      dsimp only at h1
      conv_lhs => rw [hsplit]
      rw [processBuf_cons f (q.drop f.length) hvf,
        ih (q.drop f.length) (fun g hg => hv g (List.mem_cons_of_mem f hg)) hq2 h1,
        splitFrames, if_pos hle]
    · rw [splitFrames, if_neg hle] at h1 ⊢
      have hq1 : q.length ≠ 1 := h1
      have hql : q = f.take q.length := by
        have := congrArg (List.take q.length) hq
        rwa [List.take_append_of_le_length (Nat.le_refl _), List.take_length,
          List.take_append_of_le_length (by omega)] at this
      have hpt := processBuf_take f q.length hvf (by omega) hq1
      rw [← hql] at hpt
      exact hpt

/-- Main induction for C1: feeding the remaining chunks from a good
buffer state publishes exactly the remaining frames, provided no chunk
boundary lands one byte past a frame start. -/
theorem captureRun_aux (chunks : List (List Nat)) :
    ∀ (fs : List (List Nat)) (p : List Nat) (acc : List (List Nat)),
    (∀ f ∈ fs, validFrame f = true) → GoodState fs p →
    p ++ concatB chunks = concatB fs →
    (∀ n ∈ cuts chunks, ∀ s ∈ frameStarts fs, p.length + n ≠ s + 1) →
    chunks.foldl feedChunk (acc, p) = (acc ++ fs, []) := by
  induction chunks with
  | nil =>
    intro fs p acc hv hgood hq hcuts
    rw [concatB, List.append_nil] at hq
    cases fs with
    | nil =>
      rw [GoodState] at hgood
      subst hgood
      simp
    | cons f fs =>
      rw [GoodState] at hgood
      obtain ⟨n, hpn, hnlt, -⟩ := hgood
      have h1 := congrArg List.length hq
      rw [hpn, List.length_take, concatB, List.length_append] at h1
      omega
  | cons c cs ih =>
    intro fs p acc hv hgood hq hcuts
    have hq' : (p ++ c) ++ concatB cs = concatB fs := by
      rw [List.append_assoc, ← concatB]
      exact hq
    have h1 : (splitFrames fs (p ++ c)).2.length ≠ 1 := by
      intro hbad
      obtain ⟨s, hs, hlen⟩ := splitFrames_leftover fs (p ++ c) (concatB cs) hq' hbad
      rw [List.length_append] at hlen
      exact hcuts c.length (by rw [cuts]; exact List.mem_cons_self _ _) s hs hlen
    obtain ⟨fs', hfs, hjoin, hgood'⟩ :=
      splitFrames_spec fs (p ++ c) (concatB cs) hv hq'
    have hproc : processBuf (p ++ c) = splitFrames fs (p ++ c) :=
      processBuf_splitFrames fs (p ++ c) (concatB cs) hv hq' h1
    have hfeed : feedChunk (acc, p) c =
        (acc ++ (splitFrames fs (p ++ c)).1, (splitFrames fs (p ++ c)).2) := by
      unfold feedChunk
      rw [hproc]
    have hconcat : concatB fs = concatB (splitFrames fs (p ++ c)).1 ++ concatB fs' := by
      conv_lhs => rw [hfs]
      exact concatB_append _ _
    have hlen_eq : (p ++ c).length =
        (concatB (splitFrames fs (p ++ c)).1).length +
          (splitFrames fs (p ++ c)).2.length := by
      have e1 := congrArg List.length hq'
      have e2 := congrArg List.length hjoin
      have e4 := congrArg List.length hconcat
      rw [List.length_append] at e1 e2 e4
      omega
    have hcuts' : ∀ n ∈ cuts cs, ∀ s ∈ frameStarts fs',
        (splitFrames fs (p ++ c)).2.length + n ≠ s + 1 := by
      intro n hn s hs
      have hmem : s + (concatB (splitFrames fs (p ++ c)).1).length ∈ frameStarts fs := by
        have := frameStarts_mem_append (splitFrames fs (p ++ c)).1 fs' s hs
        rwa [← hfs] at this
      have hcut : c.length + n ∈ cuts (c :: cs) := by
        rw [cuts]
        refine List.mem_cons_of_mem _ ?_
        have := List.mem_map_of_mem (· + c.length) hn
        simpa [Nat.add_comm] using this
      have := hcuts (c.length + n) hcut _ hmem
      rw [List.length_append] at hlen_eq
      omega
    rw [List.foldl_cons, hfeed,
      ih fs' (splitFrames fs (p ++ c)).2 (acc ++ (splitFrames fs (p ++ c)).1)
        (fun g hg => hv g (by rw [hfs]; exact List.mem_append_right _ hg))
        (hgood' h1) hjoin hcuts']
    rw [List.append_assoc, ← hfs]

/-- C1 counterexample: a single valid frame whose chunking splits the
start marker (`[FF] / [D8 FF D9]`) is silently dropped — `buf.find`
misses the lone `FF`, the resynchronization branch clears the buffer,
and nothing is ever published, refuting the claim for arbitrary splits. -/
theorem frame_reassembly_counterexample :
    validFrame [255, 216, 255, 217] = true ∧
    concatB [[255], [216, 255, 217]] = concatB [[255, 216, 255, 217]] ∧
    (captureRun [[255], [216, 255, 217]]).1 ≠ [[255, 216, 255, 217]] ∧
    (captureRun [[255], [216, 255, 217]]).1 = [] := by
  exact ⟨by decide, by decide, by decide, by decide⟩

/-- C1 amended: for every concatenation of valid marker-delimited frames
and every chunking of that stream in which no chunk boundary falls
between the two bytes of a frame's start marker (cumulative chunk length
never equals a frame start plus one), feeding the chunks in order
publishes exactly those frames, in order, byte for byte. -/
theorem frame_reassembly (fs chunks : List (List Nat))
    (hv : ∀ f ∈ fs, validFrame f = true)
    (hs : concatB chunks = concatB fs)
    (hns : ∀ n ∈ cuts chunks, ∀ s ∈ frameStarts fs, n ≠ s + 1) :
    (captureRun chunks).1 = fs := by
  unfold captureRun
  rw [captureRun_aux chunks fs [] [] hv ?good (by simpa using hs) ?cuts]
  · simp
  case good =>
    cases fs with
    | nil => rfl
    | cons f fs =>
      have hlen := (validFrame_facts f (hv f (List.mem_cons_self _ _))).1
      exact ⟨0, by simp, by omega, by omega⟩
  case cuts =>
    intro n hn s hsmem
    simpa using hns n hn s hsmem

/-- Witness for C1 at two concrete frames split across three chunks with
boundaries inside frame bodies and inside an end marker. -/
theorem frame_reassembly_witness :
    (captureRun [[255, 216, 255], [217, 255, 216, 9], [9, 255, 217]]).1 =
      [[255, 216, 255, 217], [255, 216, 9, 9, 255, 217]] :=
  frame_reassembly [[255, 216, 255, 217], [255, 216, 9, 9, 255, 217]]
    [[255, 216, 255], [217, 255, 216, 9], [9, 255, 217]]
    (by decide) (by decide) (by decide)

end Skybox
